import Mathlib

/-!
Verification development for the CaRMS data platform: a shallow embedding of
the transformation pipeline (`dagster_pipeline/assets/transform.py`,
`load.py`, `embeddings.py`) and the retrieval layer
(`api/routes/semantic_search.py`), with theorems about the derivation rules,
extraction patterns, de-duplication, load ordering and idempotence.

Strings are handled as `List Char` (`String.data`); Python `str.upper` /
`str.lower` are modelled per-character (`Char.toUpper` / `Char.toLower`),
which agrees with Python on the ASCII range exercised by the data.
-/

/-! ### transform.py: constants -/

/-- `FRENCH_SCHOOLS` from `transform.py`: French-language universities. -/
def FRENCH_SCHOOLS : List String :=
  ["Université Laval", "Université de Sherbrooke", "Université de Montréal"]

/-- `SECTION_COLUMNS` from `transform.py`: section columns of the wide CSV. -/
def SECTION_COLUMNS : List String :=
  ["program_name", "match_iteration_name", "program_contracts",
   "general_instructions", "supporting_documentation_information",
   "review_process", "interviews", "selection_criteria",
   "program_highlights", "program_curriculum", "training_sites",
   "additional_information", "return_of_service", "faq",
   "summary_of_changes"]

/-! ### transform.py: derive_stream_category -/

/-- Does the needle occur as a prefix of the haystack?  (Helper for the
Python `in` substring test.) -/
def startsWith : List Char → List Char → Bool
  | [], _ => true
  | _ :: _, [] => false
  | a :: as, b :: bs => a == b && startsWith as bs

/-- Python's `needle in hay` substring test on character lists. -/
def containsSub (needle : List Char) : List Char → Bool
  | [] => startsWith needle []
  | c :: cs => startsWith needle (c :: cs) || containsSub needle cs

/-- `derive_stream_category` from `transform.py`: maps a raw stream label to
one of three categories by case-insensitive substring containment
(`"IMG" in stream.upper()` modelled as `containsSub` over the upper-cased
character list). -/
def derive_stream_category (stream : String) : String :=
  let stream_upper := stream.data.map Char.toUpper
  if containsSub "IMG".data stream_upper then "IMG"
  else if containsSub "CMG".data stream_upper then "CMG"
  else "All"

/-! ### transform.py: extract_quota

`extract_quota` uses `re.search` with the pattern
`Approximate Quota[:\s]*\n+\s*(?:##)?\s*(\d+)` under `re.IGNORECASE`.
The embedding below is a deterministic equivalent of that search:
scan left to right for a case-insensitive occurrence of the label, and after
it accept a run of `':'`/whitespace characters that contains a newline after
its last `':'` (the `[:\s]*\n+\s*` part), an optional `"##"` marker, further
whitespace, and then a digit run whose value is returned. -/

/-- Python regex `\s` on the ASCII range: space, tab, newline, carriage
return, vertical tab, form feed. -/
def wsChar (c : Char) : Bool :=
  c = ' ' || c = '\t' || c = '\n' || c = '\r' || c = '\x0b' || c = '\x0c'

/-- Value of the maximal leading digit run, accumulator style
(`int(match.group(1))` for a greedy `(\d+)`). -/
def takeDigitsVal : List Char → Nat → Nat
  | [], acc => acc
  | c :: cs, acc =>
      if c.isDigit then takeDigitsVal cs (acc * 10 + (c.toNat - 48)) else acc

/-- Parse `(\d+)` at the head of the input: `none` unless the first character
is a digit; otherwise the value of the maximal digit run. -/
def digitsHere : List Char → Option Nat
  | [] => none
  | c :: cs => if c.isDigit then some (takeDigitsVal (c :: cs) 0) else none

/-- After the `"##"` marker: `\s*(\d+)` — skip whitespace, then digits. -/
def afterHash : List Char → Option Nat
  | [] => none
  | c :: cs => if wsChar c then afterHash cs else digitsHere (c :: cs)

/-- After the first `'#'` of the optional `"##"` marker: a second `'#'`
must follow immediately, and the marker is only admissible once the
mandatory newline has been seen (`nl = true`). -/
def afterFirstHash : List Char → Bool → Option Nat
  | [], _ => none
  | c2 :: cs2, nl => if c2 = '#' then (if nl then afterHash cs2 else none) else none

/-- The part of the quota pattern after the label:
`[:\s]*\n+\s*(?:##)?\s*(\d+)`.  The `nl` flag records whether a newline has
been seen with no `':'` after it — exactly the condition under which the
backtracking regex can place its mandatory `\n+` before the current point. -/
def phaseA : List Char → Bool → Option Nat
  | [], _ => none
  | c :: cs, nl =>
      if c = ':' then phaseA cs false
      else if c = '\n' then phaseA cs true
      else if wsChar c then phaseA cs nl
      else if c = '#' then afterFirstHash cs nl
      else if c.isDigit then (if nl then digitsHere (c :: cs) else none)
      else none

/-- Case-insensitive literal matcher: each pattern position is the list of
admissible characters after `Char.toLower` (Python `re.IGNORECASE`).
Returns the remaining input after the matched prefix. -/
def matchCI : List (List Char) → List Char → Option (List Char)
  | [], s => some s
  | _ :: _, [] => none
  | as :: ps, c :: cs => if c.toLower ∈ as then matchCI ps cs else none

/-- Boolean form of the match at the head of the input. -/
def matchesChars : List (List Char) → List Char → Bool
  | [], [] => true
  | [], _ :: _ => false
  | _ :: _, [] => false
  | as :: ps, c :: cs => (decide (c.toLower ∈ as)) && matchesChars ps cs

/-- `"Approximate Quota"` as a case-insensitive pattern. -/
def quotaPat : List (List Char) := "approximate quota".data.map (fun c => [c])

/-- Does the pattern match (case-insensitively) at some position of the
input?  Used to state the label-absent case of `re.search`. -/
def hasMatch (pat : List (List Char)) : List Char → Bool
  | [] => (matchCI pat []).isSome
  | c :: cs => (matchCI pat (c :: cs)).isSome || hasMatch pat cs

/-- `re.search` for the quota pattern: leftmost position where the label
matches and the remainder of the pattern succeeds. -/
def quotaSearch : List Char → Option Nat
  | [] => none
  | c :: cs =>
      match matchCI quotaPat (c :: cs) with
      | some rest =>
          match phaseA rest false with
          | some n => some n
          | none => quotaSearch cs
      | none => quotaSearch cs

/-- `extract_quota` from `transform.py`. -/
def extract_quota (markdown_text : String) : Option Nat :=
  quotaSearch markdown_text.data

/-! ### transform.py: extract_accreditation

`extract_accreditation` uses `re.search` with the pattern
`(?:##)?\s*(?:Accreditation status|Statut d['’]agr[ée]ment)\s*:\s*(.+?)(?:\n|$)`
under `re.IGNORECASE`, followed by
`match.group(1).strip().strip("#").strip("*").strip()`.

The optional `(?:##)?\s*` prefix never changes whether a match exists nor the
captured group (the search may simply start at the label), so the embedding
scans for the leftmost label position at which the rest of the pattern
succeeds.  After `\s*:`, the greedy `\s*` / lazy `(.+?)(?:\n|$)` combination
resolves deterministically: skip the maximal whitespace run, and capture up
to the first newline — or, if only whitespace remains, the capture consists
of whitespace and strips to the empty string (provided some remaining
character is not a newline; otherwise there is no match). -/

/-- The ASCII apostrophe, written by code point to keep source hygiene. -/
def apostrophe : Char := Char.ofNat 39

/-- `"Accreditation status"` as a case-insensitive pattern. -/
def accredLabelEn : List (List Char) :=
  "accreditation status".data.map (fun c => [c])

/-- `Statut d['’]agr[ée]ment` as a case-insensitive pattern (the `[ée]`
class additionally accepts the upper-case accented letter, which Python
case-folds). -/
def accredLabelFr : List (List Char) :=
  "statut d".data.map (fun c => [c]) ++ [[apostrophe, '’']] ++
    "agr".data.map (fun c => [c]) ++ [['e', 'é', 'É']] ++
    "ment".data.map (fun c => [c])

/-- Trim characters satisfying `p` from both ends (Python `str.strip`). -/
def trimBy (p : Char → Bool) (l : List Char) : List Char :=
  ((l.dropWhile p).reverse.dropWhile p).reverse

/-- The post-processing chain `.strip().strip("#").strip("*").strip()`. -/
def pyStripAll (l : List Char) : List Char :=
  trimBy wsChar (trimBy (fun c => c = '*') (trimBy (fun c => c = '#') (trimBy wsChar l)))

/-- The part of the accreditation pattern after the colon:
`\s*(.+?)(?:\n|$)` followed by the strip chain. -/
def afterColon (r : List Char) : Option String :=
  let rest := r.dropWhile wsChar
  if rest.isEmpty then
    if r.any (fun c => c ≠ '\n') then some "" else none
  else
    some (String.mk (pyStripAll (rest.takeWhile (fun c => c != '\n'))))

/-- Attempt the accreditation pattern with the label anchored at the head of
the input: label (English alternative first), `\s*`, `:`, then `afterColon`. -/
def accredAt (s : List Char) : Option String :=
  match (matchCI accredLabelEn s).orElse (fun _ => matchCI accredLabelFr s) with
  | none => none
  | some rest =>
      match rest.dropWhile wsChar with
      | ':' :: r => afterColon r
      | _ => none

/-- `re.search` for the accreditation pattern: leftmost label position at
which the rest of the pattern succeeds. -/
def accredSearch : List Char → Option String
  | [] => none
  | c :: cs =>
      match accredAt (c :: cs) with
      | some v => some v
      | none => accredSearch cs

/-- `extract_accreditation` from `transform.py`. -/
def extract_accreditation (markdown_text : String) : Option String :=
  accredSearch markdown_text.data

/-! ### transform.py: stg_institutions

Input rows of the program master carry `(school_id, school_name)`.
`stg_institutions` groups by `school_name`, takes the per-group minimum
`school_id` as the surrogate id, assigns the language by membership of the
name in `FRENCH_SCHOOLS`, and then asserts that exactly 18 institutions
result with unique ids (`assert` is modelled as `Except.error`). -/

/-- One row of the raw program master, restricted to the columns
`stg_institutions` reads. -/
structure RawProgramRow where
  school_id : Int
  school_name : String
deriving DecidableEq, Repr

/-- One row of the derived institution table (`id`, `name`, `language`). -/
structure Institution where
  id : Int
  name : String
  language : String
deriving DecidableEq, Repr

/-- The minimum of a pandas series: `none` on an empty group, otherwise the
fold of `min` over the values. -/
def seriesMin : List Int → Option Int
  | [] => none
  | x :: xs => some (xs.foldl min x)

/-- The pure derivation inside `stg_institutions`:
`groupby("school_name")["school_id"].min()` plus the language column.
Each distinct school name yields one row whose id is the minimum school id
of its group. -/
def deriveInstitutions (raw_programs : List RawProgramRow) : List Institution :=
  (raw_programs.map (·.school_name)).dedup.filterMap fun nm =>
    (seriesMin ((raw_programs.filter (fun r => r.school_name = nm)).map (·.school_id))).map
      fun i => ⟨i, nm, if nm ∈ FRENCH_SCHOOLS then "fr" else "en"⟩

/-- `stg_institutions` from `transform.py`, with its two `assert`s. -/
def stg_institutions (raw_programs : List RawProgramRow) :
    Except String (List Institution) :=
  let institutions := deriveInstitutions raw_programs
  if institutions.length = 18 then
    if (institutions.map (·.id)).Nodup then Except.ok institutions
    else Except.error "Duplicate institution IDs"
  else Except.error "Expected 18 institutions"

/-! ### transform.py: stg_sections

The wide CSV has one row per program (keyed `program_description_id`) and
one column per section.  A cell is `none` when it is empty (pandas `NaN`).
`stg_sections` melts the section columns to long form and drops null
content (`dropna(subset=["content"])`), renaming the key to `program_id`.
pandas `melt` enumerates the value columns in the outer loop. -/

/-- One row of the wide sections CSV: the key column plus a cell per
section column name. -/
structure WideRow where
  program_description_id : Int
  cells : String → Option String

/-- One row of the long-format description table. -/
structure SectionRow where
  program_id : Int
  section_name : String
  content : String
deriving DecidableEq, Repr

/-- `stg_sections` from `transform.py`: melt over `SECTION_COLUMNS`, drop
empty cells, select `(program_id, section_name, content)`. -/
def stg_sections (raw_sections : List WideRow) : List SectionRow :=
  SECTION_COLUMNS.flatMap fun section_name =>
    raw_sections.filterMap fun r =>
      (r.cells section_name).map fun content =>
        ⟨r.program_description_id, section_name, content⟩

/-! ### api/routes/semantic_search.py: semantic_search

The SQL query returns raw hits ordered by ascending cosine distance,
limited to `top_k`.  The Python loop then de-duplicates by `program_id`,
keeping the first (hence lowest-distance) hit per program — `seen` is an
insertion-ordered dict, so output order is first-seen order.  A hit is
modelled by its `(program_id, cosine distance)` pair — the only columns the
de-duplication inspects. -/

/-- The de-duplication loop of `semantic_search`: `seen` collects program
ids already represented; later hits for such programs are dropped. -/
def semanticDedup : List Int → List (Int × ℚ) → List (Int × ℚ)
  | _, [] => []
  | seen, (pid, dist) :: t =>
      if pid ∈ seen then semanticDedup seen t
      else (pid, dist) :: semanticDedup (pid :: seen) t

/-- `semantic_search` from `semantic_search.py`, restricted to its in-process
part: the raw hits (already ordered ascending by the SQL `ORDER BY`) are
de-duplicated by parent program id. -/
def semantic_search (rawHits : List (Int × ℚ)) : List (Int × ℚ) :=
  semanticDedup [] rawHits

/-! ### api/routes/semantic_search.py: question_answer

`question_answer` retrieves `top_k` chunks (no de-duplication), raises a 404
(`"No relevant program data found."`) when the result set is empty, and
only otherwise builds the RAG prompt and invokes the LLM.  The generative
collaborator is a parameter `llm : String → Except String String`
(normal completion or exception message); a connection-style failure maps
to 503, any other to 500. -/

/-- One retrieved row: `(chunk_text, program_name, institution_name)`. -/
structure RetrievedRow where
  chunk_text : String
  program_name : String
  institution_name : String
deriving DecidableEq, Repr

/-- The possible outcomes of the `/qa` endpoint. -/
inductive QAOutcome where
  | notFound (detail : String)
  | serviceUnavailable (detail : String)
  | llmError (detail : String)
  | ok (answer : String) (source_chunks : List String) (num_sources : Nat)
deriving DecidableEq, Repr

/-- The formatted RAG prompt (`RAG_PROMPT.format(context=..., question=...)`),
with the template text of `RAG_PROMPT_TEMPLATE`. -/
def ragPromptFormat (context question : String) : String :=
  "You are a helpful assistant for the Canadian Resident Matching Service (CaRMS).\n" ++
  "Use the following context from residency program descriptions to answer the question.\n" ++
  "If you don" ++ String.mk [apostrophe] ++ "t know the answer based on the context, say so — do not make up information.\n" ++
  "Be specific and reference program names, universities, and locations when relevant.\n\n" ++
  "Context:\n" ++ context ++ "\n\nQuestion: " ++ question ++ "\n\nAnswer:"

/-- `question_answer` from `semantic_search.py`, as a function of the rows
the retrieval query returned and of the generative collaborator. -/
def question_answer (q : String) (results : List RetrievedRow)
    (llm : String → Except String String) : QAOutcome :=
  if results.isEmpty then
    QAOutcome.notFound "No relevant program data found."
  else
    let source_chunks := results.map fun r =>
      "[" ++ r.program_name ++ " — " ++ r.institution_name ++ "]: " ++
        String.mk (r.chunk_text.data.take 200) ++ "..."
    let context_parts := results.map fun r =>
      "Program: " ++ r.program_name ++ " (" ++ r.institution_name ++ ")\n" ++ r.chunk_text
    let context := String.intercalate "\n\n---\n\n" context_parts
    match llm (ragPromptFormat context q) with
    | Except.ok answer =>
        QAOutcome.ok (String.mk (trimBy wsChar answer.data)) source_chunks source_chunks.length
    | Except.error error_msg =>
        if containsSub "Connection".data error_msg.data ||
           containsSub "refused".data error_msg.data then
          QAOutcome.serviceUnavailable "Ollama is not running."
        else
          QAOutcome.llmError ("LLM error: " ++ error_msg)

/-! ### dagster_pipeline/assets/load.py and embeddings.py: the load stages

Each load asset opens a session, deletes existing rows, and inserts the
staged rows (in batches for descriptions and embeddings).  The database is
modelled as five row lists; each stage is a list of operations
(`deleteAll` / typed inserts) executed left to right.  A `deleteAll` of a
table whose dependent (child) tables still hold rows is a foreign-key
violation — this models deleting every row of a parent table in a store
whose non-null foreign keys satisfy referential integrity.  (Insert-side
foreign-key checking is a separate concern, not modelled here; the claims
under verification concern the deletions.)  `db_embeddings` drops and
recreates the `program_embeddings` table, which empties it like a delete;
its terminal index build touches no rows. -/

/-- One row of `disciplines`. -/
structure Discipline where
  id : Int
  name : String
deriving DecidableEq, Repr

/-- One row of `programs`. -/
structure Program where
  id : Int
  discipline_id : Int
  institution_id : Int
  name : String
  site : String
  stream : String
  stream_category : String
  quota : Option Int
  accreditation : Option String
  source_url : String
deriving DecidableEq, Repr

/-- One row of `program_descriptions`. -/
structure ProgramDescription where
  program_id : Int
  section_name : String
  content : String
deriving DecidableEq, Repr

/-- One row of `program_embeddings` (the vector entries play no role in the
load-order claims; they are carried as exact rationals). -/
structure ProgramEmbedding where
  program_id : Int
  chunk_index : Nat
  chunk_text : String
  embedding : List ℚ
deriving DecidableEq, Repr

/-- The five target tables, in the model. -/
inductive Table where
  | disciplines
  | institutions
  | programs
  | descriptions
  | embeddings
deriving DecidableEq, Repr

/-- The state of the relational store: one row list per table. -/
structure DBState where
  disciplines : List Discipline
  institutions : List Institution
  programs : List Program
  program_descriptions : List ProgramDescription
  program_embeddings : List ProgramEmbedding
deriving DecidableEq, Repr

/-- One step of a load stage. -/
inductive LoadOp where
  | deleteAll (t : Table)
  | insertDisciplines (rows : List Discipline)
  | insertInstitutions (rows : List Institution)
  | insertPrograms (rows : List Program)
  | insertDescriptions (rows : List ProgramDescription)
  | insertEmbeddings (rows : List ProgramEmbedding)
deriving DecidableEq, Repr

/-- Is the operation a deletion? -/
def isDeleteOp : LoadOp → Bool
  | LoadOp.deleteAll _ => true
  | _ => false

/-- The table a deletion clears, if the operation is one. -/
def deletedTable : LoadOp → Option Table
  | LoadOp.deleteAll t => some t
  | _ => none

/-- Do rows referencing table `t` through a non-null foreign key exist?
`programs` references `disciplines` and `institutions`;
`program_descriptions` and `program_embeddings` reference `programs`. -/
def referencingRowsExist (s : DBState) : Table → Bool
  | Table.disciplines => !s.programs.isEmpty
  | Table.institutions => !s.programs.isEmpty
  | Table.programs => !s.program_descriptions.isEmpty || !s.program_embeddings.isEmpty
  | Table.descriptions => false
  | Table.embeddings => false

/-- Clear every row of one table. -/
def applyDelete (s : DBState) : Table → DBState
  | Table.disciplines => { s with disciplines := [] }
  | Table.institutions => { s with institutions := [] }
  | Table.programs => { s with programs := [] }
  | Table.descriptions => { s with program_descriptions := [] }
  | Table.embeddings => { s with program_embeddings := [] }

/-- Execute one operation; a deletion of a still-referenced table raises a
foreign-key violation. -/
def execOp (s : DBState) : LoadOp → Except String DBState
  | LoadOp.deleteAll t =>
      if referencingRowsExist s t then Except.error "foreign key violation"
      else Except.ok (applyDelete s t)
  | LoadOp.insertDisciplines rows => Except.ok { s with disciplines := s.disciplines ++ rows }
  | LoadOp.insertInstitutions rows => Except.ok { s with institutions := s.institutions ++ rows }
  | LoadOp.insertPrograms rows => Except.ok { s with programs := s.programs ++ rows }
  | LoadOp.insertDescriptions rows =>
      Except.ok { s with program_descriptions := s.program_descriptions ++ rows }
  | LoadOp.insertEmbeddings rows =>
      Except.ok { s with program_embeddings := s.program_embeddings ++ rows }

/-- Execute a stage's operations left to right, stopping at a violation. -/
def runOps (s : DBState) (ops : List LoadOp) : Except String DBState :=
  ops.foldlM execOp s

/-- Fixed-size insert batches (`range(0, len(records), batch_size)` with
slices `records[i : i + batch_size]`). -/
def batches (n : Nat) : List α → List (List α)
  | [] => []
  | x :: xs => (x :: xs.take (n - 1)) :: batches n (xs.drop (n - 1))
termination_by l => l.length
decreasing_by simp [List.length_drop]; omega

/-- `db_disciplines` from `load.py`: delete all five tables in reverse
foreign-key order, then insert the staged disciplines. -/
def db_disciplines_ops (stg : List Discipline) : List LoadOp :=
  [LoadOp.deleteAll Table.embeddings, LoadOp.deleteAll Table.descriptions,
   LoadOp.deleteAll Table.programs, LoadOp.deleteAll Table.institutions,
   LoadOp.deleteAll Table.disciplines, LoadOp.insertDisciplines stg]

/-- `db_institutions` from `load.py`. -/
def db_institutions_ops (stg : List Institution) : List LoadOp :=
  [LoadOp.deleteAll Table.embeddings, LoadOp.deleteAll Table.descriptions,
   LoadOp.deleteAll Table.programs, LoadOp.deleteAll Table.institutions,
   LoadOp.insertInstitutions stg]

/-- `db_programs` from `load.py`. -/
def db_programs_ops (stg : List Program) : List LoadOp :=
  [LoadOp.deleteAll Table.embeddings, LoadOp.deleteAll Table.descriptions,
   LoadOp.deleteAll Table.programs, LoadOp.insertPrograms stg]

/-- `db_descriptions` from `load.py`: delete the description rows, then
bulk-insert in batches of 1000. -/
def db_descriptions_ops (stg : List ProgramDescription) : List LoadOp :=
  LoadOp.deleteAll Table.descriptions ::
    (batches 1000 stg).map LoadOp.insertDescriptions

/-- `db_embeddings` from `embeddings.py`: drop-and-recreate the embeddings
table (modelled as a delete), then insert in batches of 500. -/
def db_embeddings_ops (stg : List ProgramEmbedding) : List LoadOp :=
  LoadOp.deleteAll Table.embeddings ::
    (batches 500 stg).map LoadOp.insertEmbeddings

/-- The full load: the five stages in dependency order
(`db_disciplines`, `db_institutions`, `db_programs`, `db_descriptions`,
`db_embeddings`). -/
def full_load (d : List Discipline) (i : List Institution) (p : List Program)
    (ds : List ProgramDescription) (e : List ProgramEmbedding) : List LoadOp :=
  db_disciplines_ops d ++ db_institutions_ops i ++ db_programs_ops p ++
    db_descriptions_ops ds ++ db_embeddings_ops e

/-- The canonical reverse-foreign-key deletion order stated by the spec:
embeddings, then descriptions, then programs, then institutions, then
disciplines. -/
def reverseFKOrder : List Table :=
  [Table.embeddings, Table.descriptions, Table.programs,
   Table.institutions, Table.disciplines]

/-- A stage trace is one of the five load assets, at some staged input. -/
def isLoadStage (ops : List LoadOp) : Prop :=
  (∃ d, ops = db_disciplines_ops d) ∨ (∃ i, ops = db_institutions_ops i) ∨
  (∃ p, ops = db_programs_ops p) ∨ (∃ ds, ops = db_descriptions_ops ds) ∨
  (∃ e, ops = db_embeddings_ops e)

/-! ### Sample inputs used by concrete witnesses -/

/-- A one-row wide sections table with a single non-empty cell. -/
def sampleWideRow : WideRow :=
  ⟨5, fun c => if c = "faq" then some "Questions and answers" else none⟩

/-- A program master sample with 18 distinct schools (the three French ones
among them) and distinct school ids. -/
def sampleRawPrograms : List RawProgramRow :=
  [⟨1, "Université Laval"⟩, ⟨2, "Université de Sherbrooke"⟩,
   ⟨3, "Université de Montréal"⟩, ⟨4, "University of Toronto"⟩,
   ⟨5, "McGill University"⟩, ⟨6, "University of British Columbia"⟩,
   ⟨7, "University of Alberta"⟩, ⟨8, "University of Calgary"⟩,
   ⟨9, "University of Manitoba"⟩, ⟨10, "University of Saskatchewan"⟩,
   ⟨11, "Dalhousie University"⟩, ⟨12, "Memorial University"⟩,
   ⟨13, "Western University"⟩, ⟨14, "McMaster University"⟩,
   ⟨15, "University of Ottawa"⟩, ⟨16, "Queens University"⟩,
   ⟨17, "Northern Ontario School of Medicine"⟩,
   ⟨18, "University of Victoria"⟩]

/-- The empty database state. -/
def emptyDB : DBState := ⟨[], [], [], [], []⟩

/-! ## Theorems -/

/-! ### C3: stream category derivation -/

/-- C3: for every stream label, `derive_stream_category` yields `"IMG"` when
the upper-cased label contains `"IMG"`, otherwise `"CMG"` when it contains
`"CMG"`, otherwise `"All"`; the result is always one of exactly these three
values. -/
theorem c3_derive_stream_category (stream : String) :
    (containsSub "IMG".data (stream.data.map Char.toUpper) = true →
      derive_stream_category stream = "IMG") ∧
    (containsSub "IMG".data (stream.data.map Char.toUpper) = false →
      containsSub "CMG".data (stream.data.map Char.toUpper) = true →
      derive_stream_category stream = "CMG") ∧
    (containsSub "IMG".data (stream.data.map Char.toUpper) = false →
      containsSub "CMG".data (stream.data.map Char.toUpper) = false →
      derive_stream_category stream = "All") ∧
    (derive_stream_category stream = "IMG" ∨ derive_stream_category stream = "CMG" ∨
      derive_stream_category stream = "All") := by
  cases h1 : containsSub "IMG".data (stream.data.map Char.toUpper) <;>
    cases h2 : containsSub "CMG".data (stream.data.map Char.toUpper) <;>
      simp [derive_stream_category, h1, h2]

/-- C3 witness: the three branches at concrete stream labels. -/
theorem c3_witness :
    derive_stream_category "img Stream" = "IMG" ∧
    derive_stream_category "Quebec cmg" = "CMG" ∧
    derive_stream_category "open" = "All" :=
  ⟨(c3_derive_stream_category "img Stream").1 (by decide),
   (c3_derive_stream_category "Quebec cmg").2.1 (by decide) (by decide),
   (c3_derive_stream_category "open").2.2.1 (by decide) (by decide)⟩

/-! ### C1: semantic_search de-duplication -/

/-- Every output hit of the de-duplication loop is one of the raw hits. -/
theorem semanticDedup_subset :
    ∀ (l : List (Int × ℚ)) (seen : List Int) (x : Int × ℚ),
      x ∈ semanticDedup seen l → x ∈ l := by
  intro l
  induction l with
  | nil => intro seen x h; simp [semanticDedup] at h
  | cons hd t ih =>
      intro seen x h
      obtain ⟨pid, dist⟩ := hd
      rw [semanticDedup] at h
      split at h
      · exact List.mem_cons_of_mem _ (ih seen x h)
      · rcases List.mem_cons.mp h with h' | h'
        · exact h' ▸ List.mem_cons_self _ _
        · exact List.mem_cons_of_mem _ (ih _ x h')

/-- The output program ids avoid `seen` and are pairwise distinct. -/
theorem semanticDedup_fst_nodup :
    ∀ (l : List (Int × ℚ)) (seen : List Int),
      ((semanticDedup seen l).map Prod.fst).Nodup ∧
      ∀ p ∈ (semanticDedup seen l).map Prod.fst, p ∉ seen := by
  intro l
  induction l with
  | nil => intro seen; simp [semanticDedup]
  | cons hd t ih =>
      intro seen
      obtain ⟨pid, dist⟩ := hd
      rw [semanticDedup]
      split
      · exact ih seen
      · rename_i hnot
        obtain ⟨ihn, ihs⟩ := ih (pid :: seen)
        refine ⟨List.nodup_cons.mpr ⟨fun hmem => ?_, ihn⟩, ?_⟩
        · exact (ihs pid hmem) (List.mem_cons_self _ _)
        · intro p hp
          rcases List.mem_cons.mp hp with h' | h'
          · exact h' ▸ hnot
          · exact fun hs => (ihs p h') (List.mem_cons_of_mem _ hs)

/-- Every raw program id not yet seen is represented in the output. -/
theorem semanticDedup_fst_complete :
    ∀ (l : List (Int × ℚ)) (seen : List Int) (p : Int),
      p ∈ l.map Prod.fst → p ∉ seen →
      p ∈ (semanticDedup seen l).map Prod.fst := by
  intro l
  induction l with
  | nil => intro seen p h; simp at h
  | cons hd t ih =>
      intro seen p hp hns
      obtain ⟨pid, dist⟩ := hd
      rw [semanticDedup]
      rcases List.mem_cons.mp hp with h' | h'
      · simp only at h'
        subst h'
        split
        · rename_i hseen; exact absurd hseen hns
        · exact List.mem_cons_self _ _
      · split
        · exact ih seen p h' hns
        · by_cases hpq : p = pid
          · subst hpq; exact List.mem_cons_self _ _
          · refine List.mem_cons_of_mem _ (ih (pid :: seen) p h' ?_)
            intro hmem
            rcases List.mem_cons.mp hmem with h'' | h''
            · exact hpq h''
            · exact hns h''

/-- On ascending input, each kept hit has minimal distance among the raw
hits of its program. -/
theorem semanticDedup_min :
    ∀ (l : List (Int × ℚ)) (seen : List Int),
      l.Pairwise (fun a b => a.2 ≤ b.2) →
      ∀ x ∈ semanticDedup seen l, ∀ y ∈ l, y.1 = x.1 → x.2 ≤ y.2 := by
  intro l
  induction l with
  | nil => intro seen _ x hx; simp [semanticDedup] at hx
  | cons hd t ih =>
      intro seen hsort x hx y hy hxy
      obtain ⟨pid, dist⟩ := hd
      obtain ⟨hhead, htail⟩ := List.pairwise_cons.mp hsort
      rw [semanticDedup] at hx
      split at hx
      · rename_i hseen
        rcases List.mem_cons.mp hy with h' | h'
        · exfalso
          have := (semanticDedup_fst_nodup t seen).2 x.1
            (List.mem_map.mpr ⟨x, hx, rfl⟩)
          subst h'
          simp only at hxy
          exact this (hxy ▸ hseen)
        · exact ih seen htail x hx y h' hxy
      · rcases List.mem_cons.mp hx with hx' | hx'
        · subst hx'
          rcases List.mem_cons.mp hy with h' | h'
          · subst h'; exact le_refl _
          · exact hhead y h'
        · rcases List.mem_cons.mp hy with h' | h'
          · exfalso
            have hnot := (semanticDedup_fst_nodup t (pid :: seen)).2 x.1
              (List.mem_map.mpr ⟨x, hx', rfl⟩)
            apply hnot
            subst h'
            have hx1 : x.1 = pid := hxy.symm
            rw [hx1]
            exact List.mem_cons_self _ _
          · exact ih (pid :: seen) htail x hx' y h' hxy

/-- C1: on raw hits ordered by ascending cosine distance, `semantic_search`
returns exactly one result per distinct parent program id, keeping for each
program the first-seen (lowest-distance) hit and dropping later hits for an
already-represented program; concretely, the raw hits
`[(5, 0.1), (5, 0.3), (7, 0.2)]` de-duplicate to
`[(5, 0.1), (7, 0.2)]`. -/
theorem c1_semantic_search_dedup :
    (∀ rawHits : List (Int × ℚ), rawHits.Pairwise (fun a b => a.2 ≤ b.2) →
      ((semantic_search rawHits).map Prod.fst).Nodup ∧
      (∀ p : Int, p ∈ (semantic_search rawHits).map Prod.fst ↔
        p ∈ rawHits.map Prod.fst) ∧
      (∀ x ∈ semantic_search rawHits, x ∈ rawHits ∧
        ∀ y ∈ rawHits, y.1 = x.1 → x.2 ≤ y.2)) ∧
    semantic_search [(5, 1/10), (5, 3/10), (7, 2/10)] = [(5, 1/10), (7, 2/10)] := by
  constructor
  · intro rawHits hsort
    refine ⟨(semanticDedup_fst_nodup rawHits []).1, fun p => ⟨fun hp => ?_, fun hp => ?_⟩, fun x hx => ⟨semanticDedup_subset rawHits [] x hx, semanticDedup_min rawHits [] hsort x hx⟩⟩
    · obtain ⟨x, hx, rfl⟩ := List.mem_map.mp hp
      exact List.mem_map.mpr ⟨x, semanticDedup_subset rawHits [] x hx, rfl⟩
    · exact semanticDedup_fst_complete rawHits [] p hp (List.not_mem_nil p)
  · norm_num [semantic_search, semanticDedup]

/-- C1 witness: the general statement applied to concrete ascending hits. -/
theorem c1_witness :
    ((semantic_search [(5, 1/10), (7, 2/10), (5, 3/10)]).map Prod.fst).Nodup :=
  (c1_semantic_search_dedup.1 [(5, 1/10), (7, 2/10), (5, 3/10)] (by norm_num)).1

/-! ### C2: section reshaper -/

/-- C2: `stg_sections` emits the long row `(program_id, section_name,
content)` exactly when some input row has that program id and its cell for
that (enumerated) section column holds that non-empty content; empty
(missing) cells produce no output row. -/
theorem c2_stg_sections (raw_sections : List WideRow) (pid : Int)
    (sec content : String) :
    (⟨pid, sec, content⟩ : SectionRow) ∈ stg_sections raw_sections ↔
      sec ∈ SECTION_COLUMNS ∧ ∃ r ∈ raw_sections,
        r.program_description_id = pid ∧ r.cells sec = some content := by
  constructor
  · intro h
    obtain ⟨c, hc, hmem⟩ := List.mem_flatMap.mp h
    obtain ⟨r, hr, hval⟩ := List.mem_filterMap.mp hmem
    obtain ⟨v, hv, heq⟩ := Option.map_eq_some'.mp hval
    obtain ⟨h1, h2, h3⟩ := SectionRow.mk.injEq _ _ _ _ _ _ ▸ heq
    exact ⟨h2 ▸ hc, r, hr, h1, h2 ▸ h3 ▸ hv⟩
  · rintro ⟨hsec, r, hr, hid, hcell⟩
    exact List.mem_flatMap.mpr ⟨sec, hsec,
      List.mem_filterMap.mpr ⟨r, hr, by rw [hcell, hid]; rfl⟩⟩

/-- C2 witness: the characterization instantiated at a one-row table. -/
theorem c2_witness :
    (⟨5, "faq", "Questions and answers"⟩ : SectionRow) ∈
      stg_sections [sampleWideRow] :=
  (c2_stg_sections [sampleWideRow] 5 "faq" "Questions and answers").mpr
    ⟨by decide, sampleWideRow, List.mem_cons_self _ _, rfl, rfl⟩

/-! ### C7: empty-context guard in question_answer -/

/-- C7: when retrieval yields zero rows, `question_answer` reports the
distinct not-found condition, and its result does not depend on the
generative collaborator — generation is never invoked on empty context. -/
theorem c7_question_answer_empty_guard (q : String)
    (llm llm2 : String → Except String String) :
    question_answer q [] llm = QAOutcome.notFound "No relevant program data found." ∧
    question_answer q [] llm = question_answer q [] llm2 :=
  ⟨rfl, rfl⟩

/-! ### C4 and C10: quota extraction -/

/-- A successful case-insensitive literal match splits the input into the
matched prefix and the remainder. -/
theorem matchCI_split :
    ∀ (pat : List (List Char)) (s r : List Char), matchCI pat s = some r →
      ∃ u, s = u ++ r ∧ matchesChars pat u = true := by
  intro pat
  induction pat with
  | nil =>
      intro s r h
      rw [matchCI] at h
      have hs : s = r := by simpa using h
      exact ⟨[], by simp [hs], rfl⟩
  | cons as ps ih =>
      intro s r h
      cases s with
      | nil => rw [matchCI] at h; exact absurd h (by simp)
      | cons c cs =>
          rw [matchCI] at h
          split at h
          · obtain ⟨u, hu, hm⟩ := ih cs r h
            refine ⟨c :: u, by rw [hu]; rfl, ?_⟩
            rw [matchesChars, hm]
            rename_i hmem
            simp [hmem]
          · exact absurd h (by simp)

/-- A successful digit parse starts with a digit. -/
theorem digitsHere_isDigit :
    ∀ (s : List Char) (n : Nat), digitsHere s = some n →
      ∃ c w, s = c :: w ∧ c.isDigit = true := by
  intro s n h
  cases s with
  | nil => rw [digitsHere] at h; exact absurd h (by simp)
  | cons c cs =>
      rw [digitsHere] at h
      split at h
      · exact ⟨c, cs, rfl, by assumption⟩
      · exact absurd h (by simp)

/-- A successful `afterFirstHash` parse needs the newline flag, a second
hash, and then an `afterHash` parse. -/
theorem afterFirstHash_split :
    ∀ (s : List Char) (nl : Bool) (n : Nat), afterFirstHash s nl = some n →
      nl = true ∧ ∃ cs2, s = '#' :: cs2 ∧ afterHash cs2 = some n := by
  intro s nl n h
  cases s with
  | nil => rw [afterFirstHash] at h; exact absurd h (by simp)
  | cons c2 cs2 =>
      rw [afterFirstHash] at h
      split at h
      · rename_i hc2
        split at h
        · rename_i hnl; exact ⟨hnl, cs2, by rw [hc2], h⟩
        · exact absurd h (by simp)
      · exact absurd h (by simp)

/-- A successful `afterHash` parse contains a digit after some prefix. -/
theorem afterHash_split :
    ∀ (s : List Char) (n : Nat), afterHash s = some n →
      ∃ u c w, s = u ++ c :: w ∧ c.isDigit = true := by
  intro s
  induction s with
  | nil => intro n h; rw [afterHash] at h; exact absurd h (by simp)
  | cons c cs ih =>
      intro n h
      rw [afterHash] at h
      split at h
      · obtain ⟨u, c', w, hu, hd⟩ := ih n h
        exact ⟨c :: u, c', w, by rw [hu]; rfl, hd⟩
      · obtain ⟨c', w, hcw, hd⟩ := digitsHere_isDigit _ n h
        exact ⟨[], c', w, hcw, hd⟩

/-- A successful parse of the post-label pattern contains a digit, and —
when no newline has been consumed yet — a newline strictly before it. -/
theorem phaseA_split :
    ∀ (s : List Char) (nl : Bool) (n : Nat), phaseA s nl = some n →
      ∃ u c w, s = u ++ c :: w ∧ c.isDigit = true ∧
        (nl = false → '\n' ∈ u) := by
  intro s
  induction s with
  | nil => intro nl n h; rw [phaseA] at h; exact absurd h (by simp)
  | cons c cs ih =>
      intro nl n h
      rw [phaseA] at h
      split at h
      · obtain ⟨u, c', w, hu, hd, hnl⟩ := ih false n h
        exact ⟨c :: u, c', w, by rw [hu]; rfl, hd,
          fun _ => List.mem_cons_of_mem _ (hnl rfl)⟩
      · split at h
        · rename_i hc
          obtain ⟨u, c', w, hu, hd, _⟩ := ih true n h
          refine ⟨c :: u, c', w, by rw [hu]; rfl, hd, fun _ => ?_⟩
          rw [hc]
          exact List.mem_cons_self _ _
        · split at h
          · obtain ⟨u, c', w, hu, hd, hnl⟩ := ih nl n h
            exact ⟨c :: u, c', w, by rw [hu]; rfl, hd,
              fun hf => List.mem_cons_of_mem _ (hnl hf)⟩
          · split at h
            · obtain ⟨hnl, cs2, hcs, hah⟩ := afterFirstHash_split cs nl n h
              obtain ⟨u, c', w, hu, hd⟩ := afterHash_split cs2 n hah
              refine ⟨c :: '#' :: u, c', w, ?_, hd, by simp [hnl]⟩
              rw [hcs, hu]
              rfl
            · split at h
              · split at h
                · rename_i hnl
                  obtain ⟨c', w, hcw, hd⟩ := digitsHere_isDigit _ n h
                  exact ⟨[], c', w, hcw, hd, by simp [hnl]⟩
                · exact absurd h (by simp)
              · exact absurd h (by simp)

/-- A successful quota search decomposes the text into: a prefix, a
case-insensitive occurrence of the label, a separator region containing a
newline, and a digit. -/
theorem quotaSearch_split :
    ∀ (s : List Char) (n : Nat), quotaSearch s = some n →
      ∃ pre lab mid c post, s = pre ++ lab ++ mid ++ c :: post ∧
        matchesChars quotaPat lab = true ∧ '\n' ∈ mid ∧ c.isDigit = true := by
  intro s
  induction s with
  | nil => intro n h; rw [quotaSearch] at h; exact absurd h (by simp)
  | cons c cs ih =>
      intro n h
      rw [quotaSearch] at h
      split at h
      · rename_i rest hm
        split at h
        · rename_i m hp
          obtain ⟨lab, hlab, hmc⟩ := matchCI_split quotaPat (c :: cs) rest hm
          obtain ⟨mid, d, post, hrest, hd, hnl⟩ := phaseA_split rest false m hp
          refine ⟨[], lab, mid, d, post, ?_, hmc, hnl rfl, hd⟩
          rw [List.nil_append, hlab, hrest, List.append_assoc]
        · obtain ⟨pre, lab, mid, d, post, hs, hmc, hnl, hd⟩ := ih n h
          exact ⟨c :: pre, lab, mid, d, post, by rw [hs]; rfl, hmc, hnl, hd⟩
      · obtain ⟨pre, lab, mid, d, post, hs, hmc, hnl, hd⟩ := ih n h
        exact ⟨c :: pre, lab, mid, d, post, by rw [hs]; rfl, hmc, hnl, hd⟩

/-- When the label matches at no position, the quota search fails. -/
theorem quotaSearch_none_of_no_label :
    ∀ s : List Char, hasMatch quotaPat s = false → quotaSearch s = none := by
  intro s
  induction s with
  | nil => intro _; rfl
  | cons c cs ih =>
      intro h
      rw [hasMatch] at h
      rw [Bool.or_eq_false_iff] at h
      obtain ⟨h1, h2⟩ := h
      rw [quotaSearch]
      cases hm : matchCI quotaPat (c :: cs) with
      | some rest => rw [hm] at h1; simp at h1
      | none => simp only [hm]; exact ih h2

/-- C4: quota extraction yields `12` on `"Approximate Quota:\n\n## 12"`,
yields nothing when the case-insensitive label is absent, and any returned
value is a non-negative integer. -/
theorem c4_extract_quota :
    extract_quota "Approximate Quota:\n\n## 12" = some 12 ∧
    (∀ t : String, hasMatch quotaPat t.data = false → extract_quota t = none) ∧
    (∀ (t : String) (n : Nat), extract_quota t = some n → 0 ≤ (n : Int)) := by
  refine ⟨by decide, fun t ht => quotaSearch_none_of_no_label t.data ht,
    fun t n _ => Int.ofNat_nonneg n⟩

/-- C4 witness: absence of the label at a concrete input. -/
theorem c4_witness : extract_quota "irrelevant text" = none :=
  c4_extract_quota.2.1 "irrelevant text" (by decide)

/-- C10: on `"Approximate Quota: 12"`, where the label and the integer
share a line with no intervening newline, extraction returns `none`; in
general every successful extraction has a newline strictly between the
matched label and the matched integer. -/
theorem c10_quota_requires_newline :
    extract_quota "Approximate Quota: 12" = none ∧
    (∀ (t : String) (n : Nat), extract_quota t = some n →
      ∃ pre lab mid c post, t.data = pre ++ lab ++ mid ++ c :: post ∧
        matchesChars quotaPat lab = true ∧ '\n' ∈ mid ∧ c.isDigit = true) :=
  ⟨by decide, fun t n h => quotaSearch_split t.data n h⟩

/-- C10 witness: the decomposition at a concrete succeeding input. -/
theorem c10_witness :
    ∃ pre lab mid c post,
      ("Approximate Quota:\n7" : String).data = pre ++ lab ++ mid ++ c :: post ∧
      matchesChars quotaPat lab = true ∧ '\n' ∈ mid ∧ c.isDigit = true :=
  c10_quota_requires_newline.2 "Approximate Quota:\n7" 7 (by decide)

/-! ### C5: accreditation extraction -/

/-- A pattern that matches a prefix succeeds on that prefix plus any rest. -/
theorem matchCI_of_matches :
    ∀ (pat : List (List Char)) (u : List Char), matchesChars pat u = true →
      ∀ r, matchCI pat (u ++ r) = some r := by
  intro pat
  induction pat with
  | nil =>
      intro u hm r
      cases u with
      | nil => rfl
      | cons c cs => rw [matchesChars] at hm; exact absurd hm (by simp)
  | cons as ps ih =>
      intro u hm r
      cases u with
      | nil => rw [matchesChars] at hm; exact absurd hm (by simp)
      | cons c cs =>
          rw [matchesChars, Bool.and_eq_true] at hm
          obtain ⟨h1, h2⟩ := hm
          rw [List.cons_append, matchCI, if_pos (of_decide_eq_true h1)]
          exact ih cs h2 r

/-- When neither label matches at the head, `accredAt` fails. -/
theorem accredAt_eq_none (s : List Char)
    (h1 : matchCI accredLabelEn s = none)
    (h2 : matchCI accredLabelFr s = none) :
    accredAt s = none := by
  rw [accredAt, h1]
  simp [Option.orElse, h2]

/-- When neither label matches at any position, the search fails. -/
theorem accredSearch_none_of_no_label :
    ∀ s : List Char, hasMatch accredLabelEn s = false →
      hasMatch accredLabelFr s = false → accredSearch s = none := by
  intro s
  induction s with
  | nil => intro _ _; rfl
  | cons c cs ih =>
      intro h1 h2
      rw [hasMatch, Bool.or_eq_false_iff] at h1 h2
      obtain ⟨h1a, h1b⟩ := h1
      obtain ⟨h2a, h2b⟩ := h2
      cases hen : matchCI accredLabelEn (c :: cs) with
      | some r => rw [hen] at h1a; simp at h1a
      | none =>
          cases hfr : matchCI accredLabelFr (c :: cs) with
          | some r => rw [hfr] at h2a; simp at h2a
          | none =>
              rw [accredSearch, accredAt_eq_none _ hen hfr]
              exact ih h1b h2b

/-- A head-anchored success is found by the search. -/
theorem accredSearch_of_accredAt (s : List Char) (v : String)
    (h : accredAt s = some v) : accredSearch s = some v := by
  cases s with
  | nil =>
      rw [(by decide : accredAt ([] : List Char) = none)] at h
      exact absurd h (by simp)
  | cons c cs => rw [accredSearch, h]

/-- `accredAt` with the English label anchored at the head and an immediate
colon resolves to `afterColon`. -/
theorem accredAt_en (r : List Char) :
    accredAt ("Accreditation status".data ++ (':' :: r)) = afterColon r := by
  rw [accredAt, matchCI_of_matches accredLabelEn "Accreditation status".data
    (by decide) (':' :: r)]
  simp +decide [Option.orElse, List.dropWhile_cons, wsChar]

/-- Capturing up to the newline recovers a newline-free payload. -/
theorem takeWhile_append_newline :
    ∀ (l t : List Char), (∀ x ∈ l, x ≠ '\n') →
      ((l ++ '\n' :: t).takeWhile (fun c => c != '\n')) = l := by
  intro l t
  induction l with
  | nil => intro _; simp [List.takeWhile_cons]
  | cons x xs ih =>
      intro hx
      rw [List.cons_append, List.takeWhile_cons]
      have hxne : (x != '\n') = true := by
        simpa using hx x (List.mem_cons_self _ _)
      simp only [hxne, if_true]
      rw [ih (fun y hy => hx y (List.mem_cons_of_mem _ hy))]

/-- `afterColon` on a space, a payload that starts with a non-whitespace
character and contains no newline, and a final newline returns the stripped
payload. -/
theorem afterColon_value (c : Char) (cs : List Char)
    (hc : wsChar c = false) (hnl : ∀ x ∈ c :: cs, x ≠ '\n') :
    afterColon (' ' :: ((c :: cs) ++ ['\n'])) =
      some (String.mk (pyStripAll (c :: cs))) := by
  have hdrop : (' ' :: ((c :: cs) ++ ['\n'])).dropWhile wsChar =
      c :: (cs ++ ['\n']) := by
    simp +decide [List.dropWhile_cons, List.cons_append, hc]
  simp only [afterColon, hdrop, List.isEmpty_cons, Bool.false_eq_true, if_false]
  have ht : c :: (cs ++ ['\n']) = (c :: cs) ++ '\n' :: [] := by simp
  rw [ht, takeWhile_append_newline _ _ hnl]

/-- C5: accreditation extraction returns the stripped text following the
label on the same line — on the concrete English and French examples, and in
general for any newline-free payload after `"Accreditation status: "` — and
returns nothing when neither label occurs. -/
theorem c5_extract_accreditation :
    extract_accreditation "Accreditation status: Fully accredited\n" =
      some "Fully accredited" ∧
    extract_accreditation "Statut d’agrément: Agréé\n" = some "Agréé" ∧
    (∀ t : String, hasMatch accredLabelEn t.data = false →
      hasMatch accredLabelFr t.data = false → extract_accreditation t = none) ∧
    (∀ (v : String) (c : Char) (cs : List Char), v.data = c :: cs →
      wsChar c = false → (∀ x ∈ v.data, x ≠ '\n') →
      extract_accreditation ("Accreditation status: " ++ v ++ "\n") =
        some (String.mk (pyStripAll v.data))) := by
  refine ⟨by decide, by decide,
    fun t h1 h2 => accredSearch_none_of_no_label t.data h1 h2,
    fun v c cs hv hc hnl => ?_⟩
  rw [extract_accreditation]
  have hdata : ("Accreditation status: " ++ v ++ "\n").data =
      "Accreditation status".data ++ (':' :: (' ' :: (v.data ++ ['\n']))) := by
    have h1 : ("Accreditation status: " ++ v ++ "\n").data =
        "Accreditation status: ".data ++ v.data ++ "\n".data := by
      simp [String.data_append]
    rw [h1, (by decide : "Accreditation status: ".data =
      "Accreditation status".data ++ [':', ' ']),
      (by decide : "\n".data = ['\n'])]
    simp
  rw [hdata]
  apply accredSearch_of_accredAt
  rw [accredAt_en]
  rw [hv]
  exact afterColon_value c cs hc (hv ▸ hnl)

/-- C5 witness: absence of both labels at a concrete input. -/
theorem c5_witness : extract_accreditation "nothing to see" = none :=
  c5_extract_accreditation.2.2.1 "nothing to see" (by decide) (by decide)

/-! ### C6: institution derivation -/

/-- Folding `min` never exceeds the accumulator. -/
theorem foldl_min_le_self :
    ∀ (xs : List Int) (x : Int), xs.foldl min x ≤ x := by
  intro xs
  induction xs with
  | nil => intro x; exact le_refl x
  | cons a t ih => intro x; exact le_trans (ih (min x a)) (min_le_left x a)

/-- Folding `min` never exceeds any list element. -/
theorem foldl_min_le_mem :
    ∀ (xs : List Int) (x y : Int), y ∈ xs → xs.foldl min x ≤ y := by
  intro xs
  induction xs with
  | nil => intro x y hy; simp at hy
  | cons a t ih =>
      intro x y hy
      rw [List.foldl_cons]
      rcases List.mem_cons.mp hy with h' | h'
      · subst h'
        exact le_trans (foldl_min_le_self t (min x y)) (min_le_right x y)
      · exact ih (min x a) y h'

/-- The fold of `min` is the accumulator or one of the elements. -/
theorem foldl_min_mem :
    ∀ (xs : List Int) (x : Int), xs.foldl min x = x ∨ xs.foldl min x ∈ xs := by
  intro xs
  induction xs with
  | nil => intro x; exact Or.inl rfl
  | cons a t ih =>
      intro x
      rw [List.foldl_cons]
      rcases ih (min x a) with h | h
      · rcases min_choice x a with hm | hm
        · exact Or.inl (h.trans hm)
        · exact Or.inr (by rw [h, hm]; exact List.mem_cons_self _ _)
      · exact Or.inr (List.mem_cons_of_mem _ h)

/-- A computed series minimum is a member and a lower bound. -/
theorem seriesMin_spec (l : List Int) (m : Int) (h : seriesMin l = some m) :
    m ∈ l ∧ ∀ y ∈ l, m ≤ y := by
  cases l with
  | nil => rw [seriesMin] at h; exact absurd h (by simp)
  | cons x xs =>
      rw [seriesMin] at h
      have hm : m = xs.foldl min x := by simpa using h.symm
      subst hm
      refine ⟨?_, fun y hy => ?_⟩
      · rcases foldl_min_mem xs x with h' | h'
        · rw [h']; exact List.mem_cons_self _ _
        · exact List.mem_cons_of_mem _ h'
      · rcases List.mem_cons.mp hy with h' | h'
        · exact h' ▸ foldl_min_le_self xs x
        · exact foldl_min_le_mem xs x y h'

/-- A nonempty series has a minimum. -/
theorem seriesMin_of_ne_nil (l : List Int) (hl : l ≠ []) :
    ∃ m, seriesMin l = some m := by
  cases l with
  | nil => exact absurd rfl hl
  | cons x xs => exact ⟨xs.foldl min x, rfl⟩

/-- Mapping a left inverse over a `filterMap` recovers the filtered list. -/
theorem filterMap_map_eq_filter {α β : Type} (f : α → Option β) (g : β → α)
    (hfg : ∀ a b, f a = some b → g b = a) :
    ∀ l : List α, (l.filterMap f).map g = l.filter (fun a => (f a).isSome) := by
  intro l
  induction l with
  | nil => rfl
  | cons a t ih =>
      cases hfa : f a with
      | none => simp [List.filterMap_cons, List.filter_cons, hfa, ih]
      | some b => simp [List.filterMap_cons, List.filter_cons, hfa, ih, hfg a b hfa]

/-- C6: whenever `stg_institutions` succeeds, it has produced exactly one
institution per distinct school name, each carrying the minimum school id
observed for that name, with language `"fr"` exactly for members of the
fixed French-institution set and `"en"` otherwise. -/
theorem c6_stg_institutions (rows : List RawProgramRow) (out : List Institution)
    (h : stg_institutions rows = Except.ok out) :
    (out.map (·.name)).Nodup ∧
    (∀ nm, nm ∈ out.map (·.name) ↔ nm ∈ rows.map (·.school_name)) ∧
    (∀ inst ∈ out,
      inst.id ∈ (rows.filter (fun r => r.school_name = inst.name)).map (·.school_id) ∧
      ∀ r ∈ rows, r.school_name = inst.name → inst.id ≤ r.school_id) ∧
    (∀ inst ∈ out,
      inst.language = if inst.name ∈ FRENCH_SCHOOLS then "fr" else "en") := by
  have hout : out = deriveInstitutions rows := by
    simp only [stg_institutions] at h
    split at h
    · split at h
      · exact (Except.ok.inj h).symm
      · exact absurd h (by simp)
    · exact absurd h (by simp)
  subst hout
  have hfg : ∀ (nm : String) (inst : Institution),
      (seriesMin ((rows.filter (fun r => r.school_name = nm)).map (·.school_id))).map
        (fun i => (⟨i, nm, if nm ∈ FRENCH_SCHOOLS then "fr" else "en"⟩ : Institution)) =
        some inst →
      inst.name = nm ∧ inst.id ∈ (rows.filter (fun r => r.school_name = nm)).map (·.school_id) ∧
      (∀ y ∈ (rows.filter (fun r => r.school_name = nm)).map (·.school_id), inst.id ≤ y) ∧
      inst.language = if nm ∈ FRENCH_SCHOOLS then "fr" else "en" := by
    intro nm inst hf
    obtain ⟨m, hm, heq⟩ := Option.map_eq_some'.mp hf
    obtain ⟨hmem, hle⟩ := seriesMin_spec _ m hm
    subst heq
    exact ⟨rfl, hmem, hle, rfl⟩
  refine ⟨?_, fun nm => ⟨fun hnm => ?_, fun hnm => ?_⟩, fun inst hinst => ?_, fun inst hinst => ?_⟩
  · rw [deriveInstitutions, filterMap_map_eq_filter _ _
      (fun nm inst hf => (hfg nm inst hf).1)]
    exact List.Nodup.filter _ (List.nodup_dedup _)
  · obtain ⟨inst, hinst, hname⟩ := List.mem_map.mp hnm
    obtain ⟨nm', hnm', hf⟩ := List.mem_filterMap.mp hinst
    have := (hfg nm' inst hf).1
    rw [← hname, this]
    exact List.mem_dedup.mp hnm'
  · obtain ⟨r, hr, hrn⟩ := List.mem_map.mp hnm
    have hrf : r ∈ rows.filter (fun r' => r'.school_name = nm) :=
      List.mem_filter.mpr ⟨hr, by simp [hrn]⟩
    have hne : (rows.filter (fun r' => r'.school_name = nm)).map (·.school_id) ≠ [] := by
      intro hnil
      rw [List.map_eq_nil_iff] at hnil
      rw [hnil] at hrf
      simp at hrf
    obtain ⟨m, hm⟩ := seriesMin_of_ne_nil _ hne
    refine List.mem_map.mpr ⟨⟨m, nm, if nm ∈ FRENCH_SCHOOLS then "fr" else "en"⟩,
      List.mem_filterMap.mpr ⟨nm, List.mem_dedup.mpr (List.mem_map.mpr ⟨r, hr, hrn⟩), ?_⟩, rfl⟩
    rw [hm]
    rfl
  · obtain ⟨nm', hnm', hf⟩ := List.mem_filterMap.mp hinst
    obtain ⟨hname, hmem, hle, _⟩ := hfg nm' inst hf
    subst hname
    refine ⟨hmem, fun r hr hrn => ?_⟩
    exact hle r.school_id (List.mem_map.mpr ⟨r, List.mem_filter.mpr ⟨hr, by simp [hrn]⟩, rfl⟩)
  · obtain ⟨nm', hnm', hf⟩ := List.mem_filterMap.mp hinst
    obtain ⟨hname, _, _, hlang⟩ := hfg nm' inst hf
    rw [hlang, hname]

/-- C6 witness: the theorem applied to an 18-school sample input. -/
theorem c6_witness :
    ((deriveInstitutions sampleRawPrograms).map (·.name)).Nodup :=
  (c6_stg_institutions sampleRawPrograms (deriveInstitutions sampleRawPrograms)
    (by rfl)).1

/-! ### C8 and C9: load ordering and idempotence -/

/-- Unfolding one step of a stage run. -/
theorem runOps_cons (s : DBState) (op : LoadOp) (ops : List LoadOp) :
    runOps s (op :: ops) = execOp s op >>= fun s' => runOps s' ops := rfl

/-- Stage runs compose over concatenation. -/
theorem runOps_append (l₁ l₂ : List LoadOp) :
    ∀ s : DBState, runOps s (l₁ ++ l₂) =
      runOps s l₁ >>= fun s' => runOps s' l₂ := by
  induction l₁ with
  | nil => intro s; rfl
  | cons op t ih =>
      intro s
      rw [List.cons_append, runOps_cons, runOps_cons]
      cases execOp s op with
      | error e => rfl
      | ok s' => exact ih s'

/-- The concatenation of the insert batches is the staged row list. -/
theorem batches_flatten {α : Type} (n : Nat) :
    ∀ l : List α, (batches n l).flatten = l := by
  have key : ∀ (k : Nat) (l : List α), l.length ≤ k → (batches n l).flatten = l := by
    intro k
    induction k with
    | zero =>
        intro l hl
        have : l = [] := List.length_eq_zero.mp (Nat.le_zero.mp hl)
        subst this
        simp [batches]
    | succ k ih =>
        intro l hl
        cases l with
        | nil => simp [batches]
        | cons x xs =>
            rw [batches, List.flatten_cons,
              ih (xs.drop (n - 1)) (by
                simp only [List.length_drop]
                simp only [List.length_cons] at hl
                omega),
              List.cons_append, List.take_append_drop]
  exact fun l => key l.length l (le_refl _)

/-- Running `db_disciplines` from any state clears everything and loads the
disciplines. -/
theorem run_db_disciplines (s : DBState) (d : List Discipline) :
    runOps s (db_disciplines_ops d) = Except.ok ⟨d, [], [], [], []⟩ := rfl

/-- Running `db_institutions` from any state. -/
theorem run_db_institutions (s : DBState) (i : List Institution) :
    runOps s (db_institutions_ops i) =
      Except.ok ⟨s.disciplines, i, [], [], []⟩ := rfl

/-- Running `db_programs` from any state. -/
theorem run_db_programs (s : DBState) (p : List Program) :
    runOps s (db_programs_ops p) =
      Except.ok ⟨s.disciplines, s.institutions, p, [], []⟩ := rfl

/-- Inserting the description batches appends all staged rows. -/
theorem runOps_insertDescriptions (bs : List (List ProgramDescription)) :
    ∀ s : DBState, runOps s (bs.map LoadOp.insertDescriptions) =
      Except.ok { s with program_descriptions := s.program_descriptions ++ bs.flatten } := by
  induction bs with
  | nil => intro s; simp [runOps, List.foldlM]; rfl
  | cons b bs ih =>
      intro s
      rw [List.map_cons, runOps_cons]
      show runOps { s with program_descriptions := s.program_descriptions ++ b }
        (bs.map LoadOp.insertDescriptions) = _
      rw [ih]
      simp [List.append_assoc]

/-- Inserting the embedding batches appends all staged rows. -/
theorem runOps_insertEmbeddings (bs : List (List ProgramEmbedding)) :
    ∀ s : DBState, runOps s (bs.map LoadOp.insertEmbeddings) =
      Except.ok { s with program_embeddings := s.program_embeddings ++ bs.flatten } := by
  induction bs with
  | nil => intro s; simp [runOps, List.foldlM]; rfl
  | cons b bs ih =>
      intro s
      rw [List.map_cons, runOps_cons]
      show runOps { s with program_embeddings := s.program_embeddings ++ b }
        (bs.map LoadOp.insertEmbeddings) = _
      rw [ih]
      simp [List.append_assoc]

/-- Running `db_descriptions` from any state replaces the description rows
and touches nothing else. -/
theorem run_db_descriptions (s : DBState) (ds : List ProgramDescription) :
    runOps s (db_descriptions_ops ds) =
      Except.ok ⟨s.disciplines, s.institutions, s.programs, ds,
        s.program_embeddings⟩ := by
  rw [db_descriptions_ops, runOps_cons]
  show runOps { s with program_descriptions := [] }
    ((batches 1000 ds).map LoadOp.insertDescriptions) = _
  rw [runOps_insertDescriptions, batches_flatten]
  rfl

/-- Running `db_embeddings` from any state replaces the embedding rows and
touches nothing else. -/
theorem run_db_embeddings (s : DBState) (e : List ProgramEmbedding) :
    runOps s (db_embeddings_ops e) =
      Except.ok ⟨s.disciplines, s.institutions, s.programs,
        s.program_descriptions, e⟩ := by
  rw [db_embeddings_ops, runOps_cons]
  show runOps { s with program_embeddings := [] }
    ((batches 500 e).map LoadOp.insertEmbeddings) = _
  rw [runOps_insertEmbeddings, batches_flatten]
  rfl

/-- The full load, from any starting state, succeeds and leaves exactly the
staged rows. -/
theorem run_full_load (d : List Discipline) (i : List Institution)
    (p : List Program) (ds : List ProgramDescription)
    (e : List ProgramEmbedding) (s : DBState) :
    runOps s (full_load d i p ds e) = Except.ok ⟨d, i, p, ds, e⟩ := by
  rw [full_load]
  simp only [List.append_assoc]
  rw [runOps_append, run_db_disciplines]
  show runOps ⟨d, [], [], [], []⟩ (db_institutions_ops i ++
    (db_programs_ops p ++ (db_descriptions_ops ds ++ db_embeddings_ops e))) = _
  rw [runOps_append, run_db_institutions]
  show runOps ⟨d, i, [], [], []⟩ (db_programs_ops p ++
    (db_descriptions_ops ds ++ db_embeddings_ops e)) = _
  rw [runOps_append, run_db_programs]
  show runOps ⟨d, i, p, [], []⟩
    (db_descriptions_ops ds ++ db_embeddings_ops e) = _
  rw [runOps_append, run_db_descriptions]
  show runOps ⟨d, i, p, ds, []⟩ (db_embeddings_ops e) = _
  rw [run_db_embeddings]

/-- Each load stage runs without a foreign-key violation from any state. -/
theorem isLoadStage_runs_ok (ops : List LoadOp) (h : isLoadStage ops)
    (s : DBState) : ∃ s', runOps s ops = Except.ok s' := by
  rcases h with ⟨d, rfl⟩ | ⟨i, rfl⟩ | ⟨p, rfl⟩ | ⟨ds, rfl⟩ | ⟨e, rfl⟩
  · exact ⟨_, run_db_disciplines s d⟩
  · exact ⟨_, run_db_institutions s i⟩
  · exact ⟨_, run_db_programs s p⟩
  · exact ⟨_, run_db_descriptions s ds⟩
  · exact ⟨_, run_db_embeddings s e⟩

/-- Nothing survives a constant-`none` `filterMap`. -/
theorem filterMap_none {α β : Type} :
    ∀ l : List α, l.filterMap (fun _ => (none : Option β)) = [] := by
  intro l
  induction l with
  | nil => rfl
  | cons a t ih => simp [List.filterMap_cons, ih]

/-- C8: in each of the five load stages, every deletion precedes every
insert, the deleted tables form a subsequence of the reverse-dependency
order (embeddings, descriptions, programs, institutions, disciplines), and
— consequently — running any sequence of load stages from any database
state never raises a foreign-key violation on a delete. -/
theorem c8_delete_order :
    (∀ (d : List Discipline),
      (∀ op ∈ (db_disciplines_ops d).dropWhile isDeleteOp, isDeleteOp op = false) ∧
      List.Sublist ((db_disciplines_ops d).filterMap deletedTable) reverseFKOrder) ∧
    (∀ (i : List Institution),
      (∀ op ∈ (db_institutions_ops i).dropWhile isDeleteOp, isDeleteOp op = false) ∧
      List.Sublist ((db_institutions_ops i).filterMap deletedTable) reverseFKOrder) ∧
    (∀ (p : List Program),
      (∀ op ∈ (db_programs_ops p).dropWhile isDeleteOp, isDeleteOp op = false) ∧
      List.Sublist ((db_programs_ops p).filterMap deletedTable) reverseFKOrder) ∧
    (∀ (ds : List ProgramDescription),
      (∀ op ∈ (db_descriptions_ops ds).dropWhile isDeleteOp, isDeleteOp op = false) ∧
      List.Sublist ((db_descriptions_ops ds).filterMap deletedTable) reverseFKOrder) ∧
    (∀ (e : List ProgramEmbedding),
      (∀ op ∈ (db_embeddings_ops e).dropWhile isDeleteOp, isDeleteOp op = false) ∧
      List.Sublist ((db_embeddings_ops e).filterMap deletedTable) reverseFKOrder) ∧
    (∀ (stages : List (List LoadOp)), (∀ st ∈ stages, isLoadStage st) →
      ∀ s : DBState, ∃ s', runOps s stages.flatten = Except.ok s') := by
  refine ⟨fun d => ⟨?_, ?_⟩, fun i => ⟨?_, ?_⟩, fun p => ⟨?_, ?_⟩,
    fun ds => ⟨?_, ?_⟩, fun e => ⟨?_, ?_⟩, ?_⟩
  · intro op hop
    rw [show (db_disciplines_ops d).dropWhile isDeleteOp =
      [LoadOp.insertDisciplines d] from rfl] at hop
    rcases List.mem_singleton.mp hop with rfl
    rfl
  · rw [show (db_disciplines_ops d).filterMap deletedTable =
      reverseFKOrder from rfl]
  · intro op hop
    rw [show (db_institutions_ops i).dropWhile isDeleteOp =
      [LoadOp.insertInstitutions i] from rfl] at hop
    rcases List.mem_singleton.mp hop with rfl
    rfl
  · rw [show (db_institutions_ops i).filterMap deletedTable =
      [Table.embeddings, Table.descriptions, Table.programs,
       Table.institutions] from rfl]
    decide
  · intro op hop
    rw [show (db_programs_ops p).dropWhile isDeleteOp =
      [LoadOp.insertPrograms p] from rfl] at hop
    rcases List.mem_singleton.mp hop with rfl
    rfl
  · rw [show (db_programs_ops p).filterMap deletedTable =
      [Table.embeddings, Table.descriptions, Table.programs] from rfl]
    decide
  · intro op hop
    rw [show (db_descriptions_ops ds).dropWhile isDeleteOp =
      ((batches 1000 ds).map LoadOp.insertDescriptions).dropWhile isDeleteOp
      from rfl] at hop
    have hmem := (List.dropWhile_sublist _).mem hop
    obtain ⟨b, _, rfl⟩ := List.mem_map.mp hmem
    rfl
  · rw [db_descriptions_ops, List.filterMap_cons]
    show List.Sublist (Table.descriptions ::
      ((batches 1000 ds).map LoadOp.insertDescriptions).filterMap deletedTable) _
    rw [List.filterMap_map]
    rw [show ((fun op => deletedTable op) ∘ LoadOp.insertDescriptions) =
      fun _ => (none : Option Table) from rfl]
    rw [filterMap_none]
    decide
  · intro op hop
    rw [show (db_embeddings_ops e).dropWhile isDeleteOp =
      ((batches 500 e).map LoadOp.insertEmbeddings).dropWhile isDeleteOp
      from rfl] at hop
    have hmem := (List.dropWhile_sublist _).mem hop
    obtain ⟨b, _, rfl⟩ := List.mem_map.mp hmem
    rfl
  · rw [db_embeddings_ops, List.filterMap_cons]
    show List.Sublist (Table.embeddings ::
      ((batches 500 e).map LoadOp.insertEmbeddings).filterMap deletedTable) _
    rw [List.filterMap_map]
    rw [show ((fun op => deletedTable op) ∘ LoadOp.insertEmbeddings) =
      fun _ => (none : Option Table) from rfl]
    rw [filterMap_none]
    decide
  · intro stages hstages
    induction stages with
    | nil => exact fun s => ⟨s, rfl⟩
    | cons st rest ih =>
        intro s
        rw [List.flatten_cons, runOps_append]
        obtain ⟨s1, h1⟩ := isLoadStage_runs_ok st
          (hstages st (List.mem_cons_self _ _)) s
        rw [h1]
        obtain ⟨s2, h2⟩ :=
          ih (fun st' hst' => hstages st' (List.mem_cons_of_mem _ hst')) s1
        exact ⟨s2, h2⟩

/-- C8 witness: a subset of stages (disciplines reload then descriptions
reload) runs from the empty database without a foreign-key violation. -/
theorem c8_witness :
    ∃ s', runOps emptyDB ([db_disciplines_ops [], db_descriptions_ops []].flatten) =
      Except.ok s' := by
  apply c8_delete_order.2.2.2.2.2
  intro st hst
  rcases List.mem_cons.mp hst with rfl | hst'
  · exact Or.inl ⟨[], rfl⟩
  · rcases List.mem_cons.mp hst' with rfl | hst''
    · exact Or.inr (Or.inr (Or.inr (Or.inl ⟨[], rfl⟩)))
    · exact absurd hst'' (List.not_mem_nil _)

/-- C9: running the full load twice on identical staged input leaves the
five tables in exactly the state a single run leaves — full replacement,
not accumulation. -/
theorem c9_full_load_idempotent (d : List Discipline) (i : List Institution)
    (p : List Program) (ds : List ProgramDescription)
    (e : List ProgramEmbedding) (s : DBState) :
    runOps s (full_load d i p ds e ++ full_load d i p ds e) =
      runOps s (full_load d i p ds e) := by
  rw [runOps_append, run_full_load]
  show runOps ⟨d, i, p, ds, e⟩ (full_load d i p ds e) = Except.ok ⟨d, i, p, ds, e⟩
  rw [run_full_load]
